import Mathlib

/-!
Shallow embedding of the Count-Min Sketch library (package countminsketch,
file countminsketch.go) and verification of its specification.

Machine integers are modelled as natural numbers with explicit reduction
modulo 2 ^ 64 (for Go uint64 / 64-bit uint arithmetic) and modulo 2 ^ 32
(for uint32).  Keys are byte sequences, modelled as lists of naturals.
The FNV-1 hasher field of the Go struct carries no logical state: it is
reset before every use, so it is omitted from the state; two sketches with
the same depth, width and counters are behaviourally identical.
-/

/-- Two to the sixty-fourth power, the modulus of Go uint64 arithmetic. -/
def U64 : Nat := 2 ^ 64

/-- Two to the thirty-second power, the modulus of Go uint32 arithmetic. -/
def U32 : Nat := 2 ^ 32

/-- The 64-bit FNV-1 prime used by hash/fnv. -/
def fnvPrime : Nat := 1099511628211

/-- The 64-bit FNV-1 offset basis used by hash/fnv. -/
def fnvOffset : Nat := 14695981039346656037

/-- The 64-bit FNV-1 hash of a byte sequence, as computed by the Go
hasher created with fnv.New64: starting from the offset basis, each byte
multiplies the state by the FNV prime (mod 2 ^ 64) and then xors the byte in. -/
def fnv64 (key : List Nat) : Nat :=
  key.foldl (fun h b => (h * fnvPrime % U64) ^^^ (b % 256)) fnvOffset

/-- CountMinSketch struct: d hashing functions, w buckets per row, and the
d-by-w counter matrix of uint64 counters. -/
structure CountMinSketch where
  d : Nat
  w : Nat
  count : List (List Nat)
deriving DecidableEq, Repr

/-- The two 32-bit base hash values of method baseHashes: the Go code sums
the key into the FNV-1 hasher, serializes the 64-bit digest big-endian, and
takes a = the low four bytes, b = the high four bytes. -/
def baseHashes (key : List Nat) : Nat × Nat :=
  (fnv64 key % U32, fnv64 key / U32 % U32)

/-- Bucket index of row r for a key: (ua + ub * r) mod w, with the sum and
product taken in 64-bit uint arithmetic, as in method locations. -/
def loc (s : CountMinSketch) (key : List Nat) (r : Nat) : Nat :=
  ((baseHashes key).1 + (baseHashes key).2 * r) % U64 % s.w

/-- Method locations: the d bucket indices of a key, one per row. -/
def locations (s : CountMinSketch) (key : List Nat) : List Nat :=
  (List.range s.d).map (loc s key)

/-- Counter value at row r, column c, read with out-of-range defaults
(the Go code panics out of range; all theorems below restrict to
well-formed sketches, where every access is in range). -/
def cellVal (m : List (List Nat)) (r c : Nat) : Nat :=
  (m.getD r []).getD c 0

/-- Counter cell a key hashes to in row r. -/
def cellAt (s : CountMinSketch) (key : List Nat) (r : Nat) : Nat :=
  cellVal s.count r (loc s key r)

/-- Function New: rejects d = 0 or w = 0 (uint values, so the Go test
d <= 0 means d == 0), otherwise allocates the zeroed d-by-w matrix. -/
def New (d w : Nat) : Except String CountMinSketch :=
  if d = 0 ∨ w = 0 then
    .error "countminsketch: values of d and w should both be greater than 0"
  else
    .ok ⟨d, w, List.replicate d (List.replicate w 0)⟩

/-- Loop body of method Update: for each (row, column) pair taken from the
enumerated locations list, add the increment into that cell, wrapping at
2 ^ 64 as Go uint64 addition does. -/
def updLoop (cnt : Nat) : List (List Nat) → List (Nat × Nat) → List (List Nat)
  | m, [] => m
  | m, (r, c) :: rest =>
      updLoop cnt (m.set r ((m.getD r []).set c ((cellVal m r c + cnt) % U64))) rest

/-- Method Update: for r, c := range s.locations(key) { s.count[r][c] += count }. -/
def Update (s : CountMinSketch) (key : List Nat) (cnt : Nat) : CountMinSketch :=
  { s with count := updLoop cnt s.count ((locations s key).enum) }

/-- Loop body of method Estimate: running minimum over the enumerated
locations, where the accumulator is (re)loaded at row 0 or when the cell is
smaller, exactly as the Go condition r == 0 || s.count[r][c] < min. -/
def estLoop (m : List (List Nat)) : List (Nat × Nat) → Nat → Nat
  | [], acc => acc
  | (r, c) :: rest, acc =>
      estLoop m rest (if r = 0 ∨ cellVal m r c < acc then cellVal m r c else acc)

/-- Method Estimate: point query, the minimum counter among the key's cells. -/
def Estimate (s : CountMinSketch) (key : List Nat) : Nat :=
  estLoop s.count ((locations s key).enum) 0

/-- Method Merge.  The receiver is mutated in place in Go; here the first
component of the result is the receiver's final state and the second is the
returned error.  On a dimension mismatch the method returns before touching
any counter, so the state comes back unchanged; on success each cell of a
well-formed receiver becomes the wrapping uint64 sum of the two cells. -/
def Merge (s other : CountMinSketch) : CountMinSketch × Option String :=
  if s.d ≠ other.d then
    (s, some "countminsketch: matrix depth must match")
  else if s.w ≠ other.w then
    (s, some "countminsketch: matrix width must match")
  else
    ({ s with count :=
        (List.range s.d).map (fun i =>
          (List.range s.w).map (fun j =>
            (cellVal s.count i j + cellVal other.count i j) % U64)) },
      none)

/-- CountMinSketchJSON: the payload struct that json.Unmarshal decodes the
structured form into. -/
structure CountMinSketchJSON where
  D : Nat
  W : Nat
  Count : List (List Nat)
deriving DecidableEq, Repr

/-- Method UnmarshalJSON, modelled after a successful parse of the payload:
the fields of the decoded CountMinSketchJSON value are installed verbatim,
with no validation, and a fresh hasher is derived (no logical state). -/
def UnmarshalJSON (_s : CountMinSketch) (j : CountMinSketchJSON) : CountMinSketch :=
  ⟨j.D, j.W, j.Count⟩

/-- Total number of counter cells held by the sketch's storage. -/
def totalCells (s : CountMinSketch) : Nat :=
  (s.count.map List.length).sum

/-- A sketch is well formed when its dimensions fit in uint64, its matrix
has exactly d rows of exactly w columns, and every counter fits in uint64.
This is the state every sketch built and maintained by the Go API has. -/
def Wellformed (s : CountMinSketch) : Prop :=
  s.d < U64 ∧ s.w < U64 ∧ s.count.length = s.d ∧
    (∀ row ∈ s.count, row.length = s.w) ∧
    (∀ row ∈ s.count, ∀ x ∈ row, x < U64)

instance (s : CountMinSketch) : Decidable (Wellformed s) := by
  unfold Wellformed; infer_instance

/-- Big-endian 8-byte encoding of a uint64 value, as written by
binary.Write with binary.BigEndian. -/
def u64be (x : Nat) : List Nat :=
  [x / 2 ^ 56 % 256, x / 2 ^ 48 % 256, x / 2 ^ 40 % 256, x / 2 ^ 32 % 256,
   x / 2 ^ 24 % 256, x / 2 ^ 16 % 256, x / 2 ^ 8 % 256, x % 256]

/-- Big-endian 8-byte decoding of a uint64 value, as read by binary.Read
with binary.BigEndian; fails when fewer than 8 bytes remain. -/
def readU64 : List Nat → Option (Nat × List Nat)
  | b0 :: b1 :: b2 :: b3 :: b4 :: b5 :: b6 :: b7 :: rest =>
      some (b0 * 2 ^ 56 + b1 * 2 ^ 48 + b2 * 2 ^ 40 + b3 * 2 ^ 32 +
            b4 * 2 ^ 24 + b5 * 2 ^ 16 + b6 * 2 ^ 8 + b7, rest)
  | _ => none

/-- Read n consecutive big-endian uint64 values (one binary.Read into a
slice of length n); fails when the stream is too short. -/
def readVals : Nat → List Nat → Option (List Nat × List Nat)
  | 0, l => some ([], l)
  | n + 1, l =>
      (readU64 l).bind fun p =>
        (readVals n p.2).bind fun q => some (p.1 :: q.1, q.2)

/-- Read d rows of w uint64 values each, the counter part of ReadFrom. -/
def readRows : Nat → Nat → List Nat → Option (List (List Nat) × List Nat)
  | 0, _, l => some ([], l)
  | n + 1, w, l =>
      (readVals w l).bind fun p =>
        (readRows n w p.2).bind fun q => some (p.1 :: q.1, q.2)

/-- Byte stream produced by method WriteTo: uint64(s.d) big-endian,
uint64(s.w) big-endian, then for each row r of d the w counters of the row
written as consecutive big-endian uint64 values (the loop copies
s.count[r][c] for c < w into the slice C and writes C). -/
def writeTo (s : CountMinSketch) : List Nat :=
  u64be (s.d % U64) ++ u64be (s.w % U64) ++
    ((List.range s.d).map (fun r =>
      ((List.range s.w).map (fun c => u64be (cellVal s.count r c))).flatten)).flatten

/-- Two's-complement reinterpretation of a natural number as a Go int64. -/
def int64Of (n : Nat) : Int :=
  if n % U64 < 2 ^ 63 then ((n % U64 : Nat) : Int)
  else ((n % U64 : Nat) : Int) - (U64 : Nat)

/-- Byte count returned by WriteTo:
int64(2*binary.Size(uint64(0)) + int(s.d)*binary.Size(C)) with C a slice of
s.w uint64 values, so binary.Size(C) = 8*w; the arithmetic wraps as int64. -/
def writeToRet (s : CountMinSketch) : Int :=
  int64Of (2 * 8 + s.d * (8 * s.w))

/-- Method ReadFrom, over a byte stream: read d and w as big-endian uint64,
then d rows of w counters each; any truncation is a read error (none).
On success the receiver's whole state is replaced by the decoded one and a
fresh hasher is installed (no logical state); trailing bytes are ignored. -/
def ReadFrom (l : List Nat) : Option CountMinSketch :=
  (readU64 l).bind fun p =>
    (readU64 p.2).bind fun q =>
      (readRows p.1 q.1 q.2).bind fun t => some ⟨p.1, q.1, t.1⟩

/-- Modelled from the spec: the binary wire format stated in the
specification, used to check WriteTo against it — depth as u64 big-endian,
width as u64 big-endian, then the depth*width counters in row-major order
(row 0 all columns, then row 1, ...), each as u64 big-endian. -/
def specBinaryLayout (s : CountMinSketch) : List Nat :=
  u64be s.d ++ u64be s.w ++ ((s.count.flatten).map u64be).flatten

/-- Function NewWithEstimates.  Go computes with float64; the embedding
idealizes float64 arithmetic as real arithmetic (hence this definition is
noncomputable), with math.Ceil followed by the uint conversion of a
nonnegative value modelled as the natural-number ceiling.  The Go literal
0.5 is the real number 1/2 exactly. -/
noncomputable def NewWithEstimates (epsilon delta : ℝ) : Except String CountMinSketch :=
  if epsilon ≤ 0 ∨ 1 ≤ epsilon then
    .error "countminsketch: value of epsilon should be in range of (0, 1)"
  else if delta ≤ 0 ∨ 1 ≤ delta then
    .error "countminsketch: value of delta should be in range of (0, 1)"
  else
    New ⌈Real.log (1 - delta) / Real.log (1 / 2)⌉₊ ⌈2 / epsilon⌉₊

/-! ### List helper lemmas -/

theorem getD_cons_zero {α : Type} (a : α) (l : List α) (dflt : α) :
    (a :: l).getD 0 dflt = a := rfl

theorem getD_cons_succ {α : Type} (a : α) (l : List α) (n : Nat) (dflt : α) :
    (a :: l).getD (n + 1) dflt = l.getD n dflt := rfl

theorem getD_nil {α : Type} (n : Nat) (dflt : α) : ([] : List α).getD n dflt = dflt := rfl

theorem getD_set_self {α : Type} (l : List α) (i : Nat) (v dflt : α)
    (h : i < l.length) : (l.set i v).getD i dflt = v := by
  induction l generalizing i with
  | nil => simp at h
  | cons a t ih =>
    cases i with
    | zero => rfl
    | succ j => exact ih j (by simpa using h)

theorem getD_set_ne {α : Type} (l : List α) (i j : Nat) (v dflt : α)
    (h : i ≠ j) : (l.set i v).getD j dflt = l.getD j dflt := by
  induction l generalizing i j with
  | nil => rfl
  | cons a t ih =>
    cases i with
    | zero =>
      cases j with
      | zero => exact absurd rfl h
      | succ k => rfl
    | succ i2 =>
      cases j with
      | zero => rfl
      | succ k => exact ih i2 k (by omega)

theorem set_getD_self {α : Type} (l : List α) (i : Nat) (dflt : α) :
    l.set i (l.getD i dflt) = l := by
  induction l generalizing i with
  | nil => rfl
  | cons a t ih =>
    cases i with
    | zero => rfl
    | succ j => simpa using ih j

theorem getD_mem {α : Type} (l : List α) (i : Nat) (dflt : α)
    (h : i < l.length) : l.getD i dflt ∈ l := by
  induction l generalizing i with
  | nil => simp at h
  | cons a t ih =>
    cases i with
    | zero => exact List.mem_cons_self a t
    | succ j => exact List.mem_cons_of_mem a (ih j (by simpa using h))

theorem forall_mem_of_forall_getD {α : Type} (P : α → Prop) (l : List α) (dflt : α)
    (h : ∀ i, i < l.length → P (l.getD i dflt)) : ∀ x ∈ l, P x := by
  induction l with
  | nil => intro x hx; simp at hx
  | cons a t ih =>
    intro x hx
    rcases List.mem_cons.mp hx with rfl | hx2
    · exact h 0 (by simp)
    · exact ih (fun i hi => h (i + 1) (by simpa using hi)) x hx2

theorem getD_map_lt {α β : Type} (f : α → β) (l : List α) (i : Nat)
    (d0 : β) (da : α) (h : i < l.length) :
    (l.map f).getD i d0 = f (l.getD i da) := by
  induction l generalizing i with
  | nil => simp at h
  | cons a t ih =>
    cases i with
    | zero => rfl
    | succ j => exact ih j (by simpa using h)

theorem map_range_getD {α β : Type} (f : α → β) (l : List α) (dflt : α) :
    (List.range l.length).map (fun i => f (l.getD i dflt)) = l.map f := by
  induction l with
  | nil => rfl
  | cons a t ih =>
    have : List.range (t.length + 1) = 0 :: (List.range t.length).map Nat.succ :=
      List.range_succ_eq_map t.length
    simp only [List.length_cons, this, List.map_cons, List.map_map]
    refine congrArg₂ _ rfl ?_
    rw [← ih]
    exact List.map_congr_left (fun i _ => rfl)

theorem getD_map_range {α : Type} (f : Nat → α) (d i : Nat) (dflt : α)
    (h : i < d) : ((List.range d).map f).getD i dflt = f i := by
  induction d generalizing f i with
  | zero => omega
  | succ n ih =>
    rw [List.range_succ_eq_map]
    cases i with
    | zero => rfl
    | succ j =>
      simp only [List.map_cons, List.map_map, getD_cons_succ]
      exact ih (fun k => f (k + 1)) j (by omega)

theorem map_const_replicate {α β : Type} (l : List α) (c : β) :
    l.map (fun _ => c) = List.replicate l.length c := by
  induction l with
  | nil => rfl
  | cons a t ih => simp [ih, List.replicate_succ]

theorem sum_replicate_nat (n m : Nat) : (List.replicate n m).sum = n * m := by
  induction n with
  | zero => simp
  | succ k ih => simp [List.replicate_succ, ih, Nat.succ_mul]; omega

theorem map_length_set {α : Type} (m : List (List α)) (r : Nat) (row : List α) :
    (m.set r row).map List.length = (m.map List.length).set r row.length := by
  induction m generalizing r with
  | nil => rfl
  | cons a t ih =>
    cases r with
    | zero => rfl
    | succ j => simp [ih]

theorem set_of_length_le {α : Type} (l : List α) (i : Nat) (v : α)
    (h : l.length ≤ i) : l.set i v = l := by
  induction l generalizing i with
  | nil => rfl
  | cons a t ih =>
    cases i with
    | zero => simp at h
    | succ j => simpa using ih j (by simpa using h)

theorem mem_of_mem_set {α : Type} (l : List α) (i : Nat) (v x : α)
    (h : x ∈ l.set i v) : x ∈ l ∨ x = v := by
  induction l generalizing i with
  | nil => simp at h
  | cons a t ih =>
    cases i with
    | zero =>
      rcases List.mem_cons.mp h with rfl | hx
      · exact Or.inr rfl
      · exact Or.inl (List.mem_cons_of_mem a hx)
    | succ j =>
      rcases List.mem_cons.mp h with rfl | hx
      · exact Or.inl (List.mem_cons_self _ _)
      · rcases ih j hx with hx2 | hx2
        · exact Or.inl (List.mem_cons_of_mem a hx2)
        · exact Or.inr hx2

theorem enumFrom_map_range {α : Type} (d : Nat) :
    ∀ (f : Nat → α) (n : Nat),
      ((List.range d).map f).enumFrom n = (List.range d).map (fun i => (n + i, f i)) := by
  induction d with
  | zero => intro f n; rfl
  | succ k ih =>
    intro f n
    rw [List.range_succ_eq_map]
    simp only [List.map_cons, List.map_map, List.enumFrom]
    refine congrArg₂ List.cons (by simp) ?_
    have h2 := ih (fun i => f (i + 1)) (n + 1)
    have hcomp : (List.range k).map (f ∘ Nat.succ)
        = (List.range k).map (fun i => f (i + 1)) :=
      List.map_congr_left (fun i _ => rfl)
    rw [hcomp, h2]
    exact List.map_congr_left (fun i _ => by
      simp only [Function.comp_apply]
      refine congrArg₂ Prod.mk (by omega) rfl)

theorem enum_map_range {α : Type} (d : Nat) (f : Nat → α) :
    ((List.range d).map f).enum = (List.range d).map (fun i => (i, f i)) := by
  have := enumFrom_map_range d f 0
  simpa [List.enum] using this

/-! ### Locations -/

theorem loc_lt_w (s : CountMinSketch) (key : List Nat) (r : Nat)
    (hw : 0 < s.w) : loc s key r < s.w :=
  Nat.mod_lt _ hw

theorem enum_locations (s : CountMinSketch) (key : List Nat) :
    (locations s key).enum = (List.range s.d).map (fun i => (i, loc s key i)) :=
  enum_map_range s.d (loc s key)

/-! ### Estimate characterization -/

theorem estLoop_le (m : List (List Nat)) :
    ∀ (pairs : List (Nat × Nat)) (a : Nat), (∀ p ∈ pairs, p.1 ≠ 0) →
      estLoop m pairs a ≤ a ∧ ∀ p ∈ pairs, estLoop m pairs a ≤ cellVal m p.1 p.2 := by
  intro pairs
  induction pairs with
  | nil => intro a _; exact ⟨Nat.le_refl a, by intro p hp; simp at hp⟩
  | cons q rest ih =>
    intro a hz
    obtain ⟨r, c⟩ := q
    have hr : r ≠ 0 := hz (r, c) (List.mem_cons_self _ _)
    have hstep : estLoop m ((r, c) :: rest) a
        = estLoop m rest (if r = 0 ∨ cellVal m r c < a then cellVal m r c else a) := rfl
    set b := if r = 0 ∨ cellVal m r c < a then cellVal m r c else a with hb
    have hba : b ≤ a := by
      rw [hb]; split
      · rename_i hcond
        rcases hcond with h0 | hlt
        · exact absurd h0 hr
        · exact Nat.le_of_lt hlt
      · exact Nat.le_refl a
    have hbc : b ≤ cellVal m r c := by
      rw [hb]; split
      · exact Nat.le_refl _
      · rename_i hcond
        push_neg at hcond
        exact hcond.2
    obtain ⟨ih1, ih2⟩ := ih b (fun p hp => hz p (List.mem_cons_of_mem _ hp))
    rw [hstep]
    refine ⟨Nat.le_trans ih1 hba, ?_⟩
    intro p hp
    rcases List.mem_cons.mp hp with rfl | hp2
    · exact Nat.le_trans ih1 hbc
    · exact ih2 p hp2

theorem estLoop_attained (m : List (List Nat)) :
    ∀ (pairs : List (Nat × Nat)) (a : Nat),
      estLoop m pairs a = a ∨ ∃ p ∈ pairs, estLoop m pairs a = cellVal m p.1 p.2 := by
  intro pairs
  induction pairs with
  | nil => intro a; exact Or.inl rfl
  | cons q rest ih =>
    intro a
    obtain ⟨r, c⟩ := q
    have hstep : estLoop m ((r, c) :: rest) a
        = estLoop m rest (if r = 0 ∨ cellVal m r c < a then cellVal m r c else a) := rfl
    set b := if r = 0 ∨ cellVal m r c < a then cellVal m r c else a with hb
    rcases ih b with hres | ⟨p, hp, hres⟩
    · rw [hstep, hres, hb]
      split
      · exact Or.inr ⟨(r, c), List.mem_cons_self _ _, rfl⟩
      · exact Or.inl rfl
    · rw [hstep]
      exact Or.inr ⟨p, List.mem_cons_of_mem _ hp, hres⟩

/-- The Estimate loop on a sketch of positive depth: the result is a lower
bound of every row's cell and is attained at some row. -/
theorem estimate_min_char (s : CountMinSketch) (key : List Nat) (hd : 0 < s.d) :
    (∀ r, r < s.d → Estimate s key ≤ cellAt s key r) ∧
      (∃ r, r < s.d ∧ Estimate s key = cellAt s key r) := by
  obtain ⟨n, hn⟩ : ∃ n, s.d = n + 1 := ⟨s.d - 1, by omega⟩
  have hpairs : (locations s key).enum
      = (0, loc s key 0) ::
        (List.range n).map (fun i => (i + 1, loc s key (i + 1))) := by
    rw [enum_locations, hn, List.range_succ_eq_map, List.map_cons, List.map_map]
    refine congrArg₂ List.cons rfl (List.map_congr_left (fun i _ => rfl))
  have hstep : Estimate s key
      = estLoop s.count
          ((List.range n).map (fun i => (i + 1, loc s key (i + 1))))
          (cellVal s.count 0 (loc s key 0)) := by
    unfold Estimate
    rw [hpairs]
    show estLoop s.count _ (if (0 : Nat) = 0 ∨ _ then _ else _) = _
    rw [if_pos (Or.inl rfl)]
  have hz : ∀ p ∈ (List.range n).map (fun i => (i + 1, loc s key (i + 1))), p.1 ≠ 0 := by
    intro p hp
    obtain ⟨i, _, rfl⟩ := List.mem_map.mp hp
    simp
  obtain ⟨h1, h2⟩ := estLoop_le s.count _ (cellVal s.count 0 (loc s key 0)) hz
  constructor
  · intro r hr
    cases r with
    | zero => rw [hstep]; exact h1
    | succ i =>
      rw [hstep]
      refine h2 (i + 1, loc s key (i + 1)) (List.mem_map.mpr ⟨i, List.mem_range.mpr ?_, rfl⟩)
      omega
  · rcases estLoop_attained s.count
        ((List.range n).map (fun i => (i + 1, loc s key (i + 1))))
        (cellVal s.count 0 (loc s key 0)) with hres | ⟨p, hp, hres⟩
    · exact ⟨0, by omega, by rw [hstep, hres]; rfl⟩
    · obtain ⟨i, hi, rfl⟩ := List.mem_map.mp hp
      refine ⟨i + 1, by have := List.mem_range.mp hi; omega, ?_⟩
      rw [hstep, hres]; rfl

/-! ### Update characterization -/

theorem updLoop_getD_not_mem (cnt : Nat) :
    ∀ (pairs : List (Nat × Nat)) (m : List (List Nat)) (r : Nat),
      (∀ p ∈ pairs, p.1 ≠ r) →
      (updLoop cnt m pairs).getD r [] = m.getD r [] := by
  intro pairs
  induction pairs with
  | nil => intro m r _; rfl
  | cons q rest ih =>
    intro m r hne
    obtain ⟨r0, c0⟩ := q
    have h0 : r0 ≠ r := hne (r0, c0) (List.mem_cons_self _ _)
    show (updLoop cnt (m.set r0 _) rest).getD r [] = _
    rw [ih _ r (fun p hp => hne p (List.mem_cons_of_mem _ hp))]
    exact getD_set_ne _ _ _ _ _ h0

theorem updLoop_length (cnt : Nat) :
    ∀ (pairs : List (Nat × Nat)) (m : List (List Nat)),
      (updLoop cnt m pairs).length = m.length := by
  intro pairs
  induction pairs with
  | nil => intro m; rfl
  | cons q rest ih =>
    intro m
    obtain ⟨r0, c0⟩ := q
    show (updLoop cnt (m.set r0 _) rest).length = _
    rw [ih]
    exact List.length_set m _ _

theorem updLoop_getD_mem (cnt : Nat) :
    ∀ (pairs : List (Nat × Nat)) (m : List (List Nat)) (r c : Nat),
      ((pairs.map Prod.fst).Nodup) → (r, c) ∈ pairs →
      (updLoop cnt m pairs).getD r []
        = (m.getD r []).set c ((cellVal m r c + cnt) % U64) := by
  intro pairs
  induction pairs with
  | nil => intro m r c _ hmem; simp at hmem
  | cons q rest ih =>
    intro m r c hnd hmem
    obtain ⟨r0, c0⟩ := q
    have hnd2 : (rest.map Prod.fst).Nodup := (List.nodup_cons.mp hnd).2
    have hnotin : r0 ∉ rest.map Prod.fst := (List.nodup_cons.mp hnd).1
    rcases List.mem_cons.mp hmem with heq | hmem2
    · have h1 : r = r0 := congrArg Prod.fst heq
      have h2 : c = c0 := congrArg Prod.snd heq
      subst h1; subst h2
      show (updLoop cnt (m.set r _) rest).getD r [] = _
      rw [updLoop_getD_not_mem cnt rest _ r
        (fun p hp h => hnotin (h ▸ List.mem_map_of_mem Prod.fst hp))]
      by_cases hlt : r < m.length
      · exact getD_set_self _ _ _ _ hlt
      · rw [set_of_length_le m r _ (by omega)]
        rw [show m.getD r [] = [] from List.getD_eq_default _ _ (by omega)]
        rfl
    · have hr0ne : r0 ≠ r := by
        intro h
        exact hnotin (h ▸ List.mem_map_of_mem Prod.fst hmem2)
      show (updLoop cnt (m.set r0 _) rest).getD r [] = _
      rw [ih _ r c hnd2 hmem2]
      have hcv : cellVal (m.set r0 ((m.getD r0 []).set c0 ((cellVal m r0 c0 + cnt) % U64))) r c
          = cellVal m r c := by
        unfold cellVal
        rw [getD_set_ne _ _ _ _ _ hr0ne]
      rw [getD_set_ne _ _ _ _ _ hr0ne, hcv]

theorem locations_fst_nodup (s : CountMinSketch) (key : List Nat) :
    (((locations s key).enum).map Prod.fst).Nodup := by
  rw [enum_locations, List.map_map]
  have : (List.range s.d).map (Prod.fst ∘ fun i => (i, loc s key i))
      = (List.range s.d).map id := List.map_congr_left (fun i _ => rfl)
  rw [this, List.map_id]
  exact List.nodup_range s.d

theorem update_d (s : CountMinSketch) (key : List Nat) (cnt : Nat) :
    (Update s key cnt).d = s.d := rfl

theorem update_w (s : CountMinSketch) (key : List Nat) (cnt : Nat) :
    (Update s key cnt).w = s.w := rfl

theorem loc_update (s : CountMinSketch) (key key2 : List Nat) (cnt r : Nat) :
    loc (Update s key cnt) key2 r = loc s key2 r := rfl

/-- Effect of Update on the cell of row r that the key hashes to:
the counter is bumped by the increment, wrapping modulo 2 ^ 64. -/
theorem update_cellAt (s : CountMinSketch) (key : List Nat) (cnt : Nat) (r : Nat)
    (hwf : Wellformed s) (hw : 0 < s.w) (hr : r < s.d) :
    cellAt (Update s key cnt) key r = (cellAt s key r + cnt) % U64 := by
  obtain ⟨_, _, hlen, hrows, _⟩ := hwf
  have hmem : (r, loc s key r) ∈ (locations s key).enum := by
    rw [enum_locations]
    exact List.mem_map.mpr ⟨r, List.mem_range.mpr hr, rfl⟩
  have hrow : (updLoop cnt s.count ((locations s key).enum)).getD r []
      = (s.count.getD r []).set (loc s key r) ((cellVal s.count r (loc s key r) + cnt) % U64) :=
    updLoop_getD_mem cnt _ s.count r (loc s key r) (locations_fst_nodup s key) hmem
  have hrowlen : (s.count.getD r []).length = s.w :=
    hrows _ (getD_mem s.count r [] (by omega))
  unfold cellAt cellVal
  show (((Update s key cnt).count).getD r []).getD (loc (Update s key cnt) key r) 0
      = ((s.count.getD r []).getD (loc s key r) 0 + cnt) % U64
  rw [loc_update]
  show ((updLoop cnt s.count ((locations s key).enum)).getD r []).getD (loc s key r) 0 = _
  rw [hrow]
  exact getD_set_self _ _ _ _ (by rw [hrowlen]; exact loc_lt_w s key r hw)

theorem updLoop_row_length (cnt : Nat) :
    ∀ (pairs : List (Nat × Nat)) (m : List (List Nat)) (r : Nat),
      ((updLoop cnt m pairs).getD r []).length = (m.getD r []).length := by
  intro pairs
  induction pairs with
  | nil => intro m r; rfl
  | cons q rest ih =>
    intro m r
    obtain ⟨r0, c0⟩ := q
    show ((updLoop cnt (m.set r0 ((m.getD r0 []).set c0 _)) rest).getD r []).length = _
    rw [ih]
    by_cases h : r0 = r
    · subst h
      by_cases hlt : r0 < m.length
      · rw [getD_set_self _ _ _ _ hlt, List.length_set]
      · rw [set_of_length_le m r0 _ (by omega)]
    · rw [getD_set_ne _ _ _ _ _ h]

theorem update_row_length (s : CountMinSketch) (key : List Nat) (cnt : Nat) (r : Nat) :
    (((Update s key cnt).count).getD r []).length = ((s.count.getD r []).length) :=
  updLoop_row_length cnt ((locations s key).enum) s.count r

theorem update_count_length (s : CountMinSketch) (key : List Nat) (cnt : Nat) :
    ((Update s key cnt).count).length = s.count.length :=
  updLoop_length cnt ((locations s key).enum) s.count

theorem updLoop_map_length (cnt : Nat) :
    ∀ (pairs : List (Nat × Nat)) (m : List (List Nat)),
      (updLoop cnt m pairs).map List.length = m.map List.length := by
  intro pairs
  induction pairs with
  | nil => intro m; rfl
  | cons q rest ih =>
    intro m
    obtain ⟨r0, c0⟩ := q
    show (updLoop cnt (m.set r0 ((m.getD r0 []).set c0 _)) rest).map List.length = _
    rw [ih]
    rw [map_length_set, List.length_set]
    by_cases hlt : r0 < m.length
    · rw [show ((m.getD r0 []).length) = (m.map List.length).getD r0 0 from
        (getD_map_lt List.length m r0 0 [] hlt).symm]
      rw [set_getD_self]
    · rw [set_of_length_le _ r0 _ (by simpa using hlt)]

/-- Update never changes the shape of the counter storage: the row count
and every row length are preserved, hence so is the total cell count. -/
theorem update_totalCells (s : CountMinSketch) (key : List Nat) (cnt : Nat) :
    totalCells (Update s key cnt) = totalCells s := by
  unfold totalCells
  show ((updLoop cnt s.count ((locations s key).enum)).map List.length).sum = _
  rw [updLoop_map_length]

theorem U64_pos : 0 < U64 := by unfold U64; positivity

/-- Update preserves well-formedness: the shape is untouched and every new
counter value is reduced modulo 2 ^ 64. -/
theorem update_wellformed (s : CountMinSketch) (key : List Nat) (cnt : Nat)
    (hwf : Wellformed s) : Wellformed (Update s key cnt) := by
  obtain ⟨hd, hw, hlen, hrows, hcells⟩ := hwf
  refine ⟨hd, hw, ?_, ?_, ?_⟩
  · rw [show (Update s key cnt).d = s.d from rfl, update_count_length, hlen]
  · apply forall_mem_of_forall_getD (fun row => row.length = (Update s key cnt).w) _ ([] : List Nat)
    intro i hi
    rw [show (Update s key cnt).w = s.w from rfl, update_row_length]
    have hi2 : i < s.count.length := by rwa [update_count_length] at hi
    exact hrows _ (getD_mem s.count i [] hi2)
  · apply forall_mem_of_forall_getD (fun row => ∀ x ∈ row, x < U64) _ ([] : List Nat)
    intro i hi
    have hi2 : i < s.count.length := by rwa [update_count_length] at hi
    have hi3 : i < s.d := hlen ▸ hi2
    have hmem : (i, loc s key i) ∈ (locations s key).enum := by
      rw [enum_locations]
      exact List.mem_map.mpr ⟨i, List.mem_range.mpr hi3, rfl⟩
    have hrow := updLoop_getD_mem cnt ((locations s key).enum) s.count i (loc s key i)
      (locations_fst_nodup s key) hmem
    show ∀ x ∈ ((Update s key cnt).count).getD i [], x < U64
    rw [show (Update s key cnt).count = updLoop cnt s.count ((locations s key).enum) from rfl,
      hrow]
    intro x hx
    rcases mem_of_mem_set _ _ _ _ hx with hx2 | rfl
    · exact hcells _ (getD_mem s.count i [] hi2) x hx2
    · exact Nat.mod_lt _ U64_pos

/-! ### Merge characterization -/

theorem merge_mismatch (s other : CountMinSketch)
    (h : s.d ≠ other.d ∨ s.w ≠ other.w) :
    (Merge s other).1 = s ∧ (Merge s other).2.isSome := by
  unfold Merge
  by_cases hd : s.d = other.d
  · have hw : s.w ≠ other.w := h.resolve_left (by simpa using hd)
    rw [if_neg (by simpa using hd), if_pos hw]
    exact ⟨rfl, rfl⟩
  · rw [if_pos hd]
    exact ⟨rfl, rfl⟩

theorem merge_ok (s other : CountMinSketch)
    (hd : s.d = other.d) (hw : s.w = other.w) :
    (Merge s other).2 = none ∧
      (Merge s other).1.d = s.d ∧ (Merge s other).1.w = s.w ∧
      (Merge s other).1.count =
        (List.range s.d).map (fun i =>
          (List.range s.w).map (fun j =>
            (cellVal s.count i j + cellVal other.count i j) % U64)) := by
  unfold Merge
  rw [if_neg (by simpa using hd), if_neg (by simpa using hw)]
  exact ⟨rfl, rfl, rfl, rfl⟩

theorem merge_cell (s other : CountMinSketch)
    (hd : s.d = other.d) (hw : s.w = other.w) (i j : Nat)
    (hi : i < s.d) (hj : j < s.w) :
    cellVal (Merge s other).1.count i j
      = (cellVal s.count i j + cellVal other.count i j) % U64 := by
  obtain ⟨-, -, -, hcnt⟩ := merge_ok s other hd hw
  unfold cellVal
  rw [hcnt, getD_map_range _ s.d i [] hi, getD_map_range _ s.w j 0 hj]
  rfl

theorem merge_ok_shape (s other : CountMinSketch)
    (hd : s.d = other.d) (hw : s.w = other.w) :
    totalCells (Merge s other).1 = (Merge s other).1.d * (Merge s other).1.w := by
  obtain ⟨-, hd2, hw2, hcnt⟩ := merge_ok s other hd hw
  unfold totalCells
  rw [hcnt, hd2, hw2, List.map_map]
  have hconst : ((List.range s.d).map
      (List.length ∘ fun i => (List.range s.w).map (fun j =>
        (cellVal s.count i j + cellVal other.count i j) % U64)))
      = (List.range s.d).map (fun _ => s.w) :=
    List.map_congr_left (fun i _ => by simp)
  rw [hconst, map_const_replicate, List.length_range, sum_replicate_nat]

/-! ### Binary codec lemmas -/

theorem readU64_u64be (x : Nat) (rest : List Nat) (hx : x < U64) :
    readU64 (u64be x ++ rest) = some (x, rest) := by
  unfold u64be readU64
  refine congrArg some (congrArg₂ Prod.mk ?_ rfl)
  unfold U64 at hx
  omega

theorem length_u64be (x : Nat) : (u64be x).length = 8 := rfl

theorem readVals_flatten (row : List Nat) (rest : List Nat)
    (hx : ∀ x ∈ row, x < U64) :
    readVals row.length ((row.map u64be).flatten ++ rest) = some (row, rest) := by
  induction row with
  | nil => rfl
  | cons a t ih =>
    show readVals (t.length + 1) ((u64be a ++ (t.map u64be).flatten) ++ rest) = _
    rw [List.append_assoc]
    unfold readVals
    rw [readU64_u64be a _ (hx a (List.mem_cons_self _ _))]
    simp only [Option.some_bind]
    rw [ih (fun x hx2 => hx x (List.mem_cons_of_mem _ hx2))]
    rfl

theorem readVals_flatten_len (w : Nat) (row : List Nat) (rest : List Nat)
    (hl : row.length = w) (hx : ∀ x ∈ row, x < U64) :
    readVals w ((row.map u64be).flatten ++ rest) = some (row, rest) := by
  subst hl
  exact readVals_flatten row rest hx

theorem readRows_flatten (rows : List (List Nat)) (w : Nat) (rest : List Nat)
    (hlen : ∀ row ∈ rows, row.length = w)
    (hx : ∀ row ∈ rows, ∀ x ∈ row, x < U64) :
    readRows rows.length w
        ((rows.map (fun row => (row.map u64be).flatten)).flatten ++ rest)
      = some (rows, rest) := by
  induction rows with
  | nil => rfl
  | cons a t ih =>
    show readRows (t.length + 1) w
        (((a.map u64be).flatten ++ (t.map (fun row => (row.map u64be).flatten)).flatten) ++ rest)
        = _
    rw [List.append_assoc]
    unfold readRows
    rw [readVals_flatten_len w a _ (hlen a (List.mem_cons_self _ _))
      (hx a (List.mem_cons_self _ _))]
    simp only [Option.some_bind]
    rw [ih (fun r hr => hlen r (List.mem_cons_of_mem _ hr))
      (fun r hr => hx r (List.mem_cons_of_mem _ hr))]
    rfl

theorem flatten_map_flatten {α β : Type} (f : α → List β) (L : List (List α)) :
    ((L.flatten).map f).flatten = (L.map (fun row => (row.map f).flatten)).flatten := by
  induction L with
  | nil => rfl
  | cons a t ih =>
    show ((a ++ t.flatten).map f).flatten = _
    rw [List.map_append, List.flatten_append, ih]
    rfl

/-- On a well-formed sketch the counters part of WriteTo is exactly the
row-major encoding of the stored matrix. -/
theorem writeTo_counters (s : CountMinSketch) (hwf : Wellformed s) :
    ((List.range s.d).map (fun r =>
      ((List.range s.w).map (fun c => u64be (cellVal s.count r c))).flatten)).flatten
    = ((s.count.map (fun row => (row.map u64be).flatten))).flatten := by
  obtain ⟨-, -, hlen, hrows, -⟩ := hwf
  refine congrArg List.flatten ?_
  have h1 : (List.range s.d).map (fun r =>
        ((List.range s.w).map (fun c => u64be (cellVal s.count r c))).flatten)
      = (List.range s.d).map (fun r => (((s.count.getD r []).map u64be)).flatten) := by
    refine List.map_congr_left (fun r hr => ?_)
    refine congrArg List.flatten ?_
    have hrl : (s.count.getD r []).length = s.w :=
      hrows _ (getD_mem s.count r [] (by rw [hlen]; exact List.mem_range.mp hr))
    rw [← hrl]
    exact map_range_getD u64be (s.count.getD r []) 0
  rw [h1, ← hlen]
  exact map_range_getD (fun row => (row.map u64be).flatten) s.count []

/-- WriteTo produces exactly the byte layout stated in the specification. -/
theorem writeTo_eq_spec (s : CountMinSketch) (hwf : Wellformed s) :
    writeTo s = specBinaryLayout s := by
  have hd := hwf.1
  have hw := hwf.2.1
  unfold writeTo specBinaryLayout
  rw [Nat.mod_eq_of_lt hd, Nat.mod_eq_of_lt hw, writeTo_counters s hwf,
    flatten_map_flatten]

theorem writeTo_length (s : CountMinSketch) :
    (writeTo s).length = 16 + 8 * (s.d * s.w) := by
  unfold writeTo
  rw [List.length_append, List.length_append, length_u64be, length_u64be,
    List.length_flatten, List.map_map]
  have h1 : (List.range s.d).map (List.length ∘ fun r =>
        ((List.range s.w).map (fun c => u64be (cellVal s.count r c))).flatten)
      = (List.range s.d).map (fun _ => 8 * s.w) := by
    refine List.map_congr_left (fun r _ => ?_)
    show (((List.range s.w).map (fun c => u64be (cellVal s.count r c))).flatten).length
        = 8 * s.w
    rw [List.length_flatten, List.map_map]
    have h2 : (List.range s.w).map (List.length ∘ fun c => u64be (cellVal s.count r c))
        = (List.range s.w).map (fun _ => 8) :=
      List.map_congr_left (fun c _ => rfl)
    rw [h2, map_const_replicate, List.length_range, sum_replicate_nat]
    omega
  rw [h1, map_const_replicate, List.length_range, sum_replicate_nat]
  have h3 : s.d * (8 * s.w) = 8 * (s.d * s.w) := Nat.mul_left_comm s.d 8 s.w
  omega

/-- Binary round-trip: decoding the bytes written by WriteTo restores the
depth, the width, and the whole counter matrix. -/
theorem readFrom_writeTo (s : CountMinSketch) (hwf : Wellformed s) :
    ReadFrom (writeTo s) = some ⟨s.d, s.w, s.count⟩ := by
  obtain ⟨hd, hw, hlen, hrows, hcells⟩ := hwf
  have hbody := readRows_flatten s.count s.w [] hrows hcells
  rw [List.append_nil] at hbody
  unfold ReadFrom writeTo
  rw [Nat.mod_eq_of_lt hd, Nat.mod_eq_of_lt hw, List.append_assoc,
    readU64_u64be s.d _ hd]
  simp only [Option.some_bind]
  rw [readU64_u64be s.w _ hw]
  simp only [Option.some_bind]
  rw [writeTo_counters s ⟨hd, hw, hlen, hrows, hcells⟩, ← hlen, hbody]
  rfl

theorem readVals_length (n : Nat) (l xs rest : List Nat)
    (h : readVals n l = some (xs, rest)) : xs.length = n := by
  induction n generalizing l xs rest with
  | zero =>
    unfold readVals at h
    injection h with h2
    rw [show xs = ([] : List Nat) from (congrArg Prod.fst h2).symm]
    rfl
  | succ k ih =>
    unfold readVals at h
    rw [Option.bind_eq_some] at h
    obtain ⟨p, hp, h⟩ := h
    rw [Option.bind_eq_some] at h
    obtain ⟨q, hq, h⟩ := h
    injection h with h2
    have hx : xs = p.1 :: q.1 := (congrArg Prod.fst h2).symm
    have hql : q.1.length = k := ih p.2 q.1 q.2 hq
    rw [hx, List.length_cons, hql]

theorem readRows_shape (n w : Nat) (l : List Nat) (rows : List (List Nat))
    (rest : List Nat) (h : readRows n w l = some (rows, rest)) :
    rows.length = n ∧ ∀ row ∈ rows, row.length = w := by
  induction n generalizing l rows rest with
  | zero =>
    unfold readRows at h
    injection h with h2
    rw [show rows = ([] : List (List Nat)) from (congrArg Prod.fst h2).symm]
    exact ⟨rfl, by intro row hr; simp at hr⟩
  | succ k ih =>
    unfold readRows at h
    rw [Option.bind_eq_some] at h
    obtain ⟨p, hp, h⟩ := h
    rw [Option.bind_eq_some] at h
    obtain ⟨q, hq, h⟩ := h
    injection h with h2
    obtain ⟨ihl, ihr⟩ := ih p.2 q.1 q.2 hq
    rw [show rows = p.1 :: q.1 from (congrArg Prod.fst h2).symm]
    refine ⟨by rw [List.length_cons, ihl], ?_⟩
    intro row hr
    rcases List.mem_cons.mp hr with rfl | hr2
    · exact readVals_length w l p.1 p.2 hp
    · exact ihr row hr2

/-- Any successful binary decode yields a sketch whose storage shape is
exactly d rows of w cells. -/
theorem readFrom_shape (l : List Nat) (s : CountMinSketch)
    (h : ReadFrom l = some s) :
    s.count.length = s.d ∧ (∀ row ∈ s.count, row.length = s.w) := by
  unfold ReadFrom at h
  rw [Option.bind_eq_some] at h
  obtain ⟨p, hp, h⟩ := h
  rw [Option.bind_eq_some] at h
  obtain ⟨q, hq, h⟩ := h
  rw [Option.bind_eq_some] at h
  obtain ⟨t, ht, h⟩ := h
  injection h with h2
  obtain ⟨hl, hr⟩ := readRows_shape p.1 q.1 q.2 t.1 t.2 ht
  rw [← h2]
  exact ⟨hl, hr⟩

/-! ### Constructor and shape lemmas -/

theorem new_ok (d w : Nat) (hd : d ≠ 0) (hw : w ≠ 0) :
    New d w = .ok ⟨d, w, List.replicate d (List.replicate w 0)⟩ := by
  unfold New
  rw [if_neg (by simp [hd, hw])]

theorem totalCells_of_shape (s : CountMinSketch)
    (h1 : s.count.length = s.d) (h2 : ∀ row ∈ s.count, row.length = s.w) :
    totalCells s = s.d * s.w := by
  unfold totalCells
  rw [List.map_congr_left h2, map_const_replicate, h1, sum_replicate_nat]

theorem new_totalCells (d w : Nat) (s2 : CountMinSketch)
    (h : New d w = Except.ok s2) : totalCells s2 = s2.d * s2.w := by
  unfold New at h
  by_cases hc : d = 0 ∨ w = 0
  · rw [if_pos hc] at h
    exact absurd h (by simp)
  · rw [if_neg hc] at h
    injection h with h2
    rw [← h2]
    refine totalCells_of_shape _ (by simp) ?_
    intro row hr
    rw [List.eq_of_mem_replicate hr]
    simp

theorem int64Of_small (n : Nat) (h : n < 2 ^ 63) : int64Of n = (n : Int) := by
  unfold int64Of
  have h2 : n % U64 = n := Nat.mod_eq_of_lt (by unfold U64; omega)
  rw [h2, if_pos h]

theorem merge_isSome_unchanged (s other : CountMinSketch)
    (h : (Merge s other).2.isSome) : (Merge s other).1 = s := by
  by_cases hd : s.d = other.d
  · by_cases hw : s.w = other.w
    · obtain ⟨hnone, -⟩ := merge_ok s other hd hw
      rw [hnone] at h
      simp at h
    · exact (merge_mismatch s other (Or.inr hw)).1
  · exact (merge_mismatch s other (Or.inl hd)).1

/-! ### NewWithEstimates -/

theorem newWithEstimates_eq (epsilon delta : ℝ)
    (he0 : 0 < epsilon) (he1 : epsilon < 1) (hd0 : 0 < delta) (hd1 : delta < 1) :
    NewWithEstimates epsilon delta
      = New ⌈Real.log (1 - delta) / Real.log (1 / 2)⌉₊ ⌈2 / epsilon⌉₊ := by
  unfold NewWithEstimates
  rw [if_neg (by push_neg; exact ⟨he0, he1⟩), if_neg (by push_neg; exact ⟨hd0, hd1⟩)]

theorem ceil_w_pos (epsilon : ℝ) (he0 : 0 < epsilon) (he1 : epsilon < 1) :
    0 < ⌈2 / epsilon⌉₊ :=
  Nat.ceil_pos.mpr (by positivity)

theorem ceil_d_pos (delta : ℝ) (hd0 : 0 < delta) (hd1 : delta < 1) :
    0 < ⌈Real.log (1 - delta) / Real.log (1 / 2)⌉₊ := by
  refine Nat.ceil_pos.mpr ?_
  have h1 : Real.log (1 - delta) < 0 := Real.log_neg (by linarith) (by linarith)
  have h2 : Real.log (1 / 2) < 0 := Real.log_neg (by norm_num) (by norm_num)
  exact div_pos_iff.mpr (Or.inr ⟨h1, h2⟩)

theorem ceil_d_concrete : ⌈Real.log (1 - (9 : ℝ) / 10) / Real.log (1 / 2)⌉₊ = 4 := by
  have hratio : Real.log (1 - (9 : ℝ) / 10) / Real.log (1 / 2)
      = Real.log 10 / Real.log 2 := by
    rw [show (1 - (9 : ℝ) / 10) = ((10 : ℝ))⁻¹ by norm_num,
      show ((1 : ℝ) / 2) = ((2 : ℝ))⁻¹ by norm_num,
      Real.log_inv, Real.log_inv, neg_div_neg_eq]
  rw [hratio]
  have hlog2 : 0 < Real.log 2 := Real.log_pos (by norm_num)
  have h3 : (3 : ℝ) < Real.log 10 / Real.log 2 := by
    rw [lt_div_iff₀ hlog2]
    have : (3 : ℝ) * Real.log 2 = Real.log (2 ^ (3 : ℕ)) := by
      rw [Real.log_pow]
      norm_num
    rw [this]
    refine Real.log_lt_log (by norm_num) (by norm_num)
  have h4 : Real.log 10 / Real.log 2 ≤ 4 := by
    rw [div_le_iff₀ hlog2]
    have : (4 : ℝ) * Real.log 2 = Real.log (2 ^ (4 : ℕ)) := by
      rw [Real.log_pow]
      norm_num
    rw [this]
    refine Real.log_le_log (by norm_num) (by norm_num)
  rw [Nat.ceil_eq_iff (by norm_num)]
  constructor
  · norm_num
    exact h3
  · norm_num
    exact h4

theorem ceil_w_concrete : ⌈2 / ((1 : ℝ) / 10)⌉₊ = 20 := by
  rw [show 2 / ((1 : ℝ) / 10) = (20 : ℝ) by norm_num]
  simp

/-! ### Claim theorems -/

/-- C1, counterexample: the claim fails as stated because uint64 counters
wrap.  Starting from New(1,1) and updating the empty key first by
2 ^ 64 - 1 and then by the positive amount 1, the counter wraps to 0, so
estimate returns 0 < 1 even though the last update added 1. -/
theorem update_overflow_counterexample :
    New 1 1 = Except.ok ⟨1, 1, [[0]]⟩ ∧
    Estimate (Update (Update ⟨1, 1, [[0]]⟩ [] (U64 - 1)) [] 1) [] = 0 :=
  ⟨rfl, by decide⟩

/-- C1, amended: for every well-formed sketch with depth and width at least
one, every key and every positive amount a, if no counter the key hashes to
overflows uint64 when a is added, then update(k, a) followed by estimate(k)
returns at least a, regardless of the prior update history. -/
theorem update_then_estimate_ge_amount (s : CountMinSketch) (key : List Nat) (a : Nat)
    (hwf : Wellformed s) (hd : 1 ≤ s.d) (hw : 1 ≤ s.w) (ha : 1 ≤ a)
    (hof : ∀ r, r < s.d → cellAt s key r + a < U64) :
    a ≤ Estimate (Update s key a) key := by
  obtain ⟨-, hatt⟩ := estimate_min_char (Update s key a) key (by rw [update_d]; omega)
  obtain ⟨r, hr, heq⟩ := hatt
  rw [update_d] at hr
  rw [heq, update_cellAt s key a r hwf (by omega) hr, Nat.mod_eq_of_lt (hof r hr)]
  omega

/-- C1 witness: the amended theorem applied at a concrete sketch. -/
theorem update_then_estimate_ge_amount_witness :
    Wellformed ⟨1, 1, [[0]]⟩ ∧ 5 ≤ Estimate (Update ⟨1, 1, [[0]]⟩ [] 5) [] :=
  ⟨by decide, update_then_estimate_ge_amount ⟨1, 1, [[0]]⟩ [] 5 (by decide) (by decide)
    (by decide) (by decide) (by decide)⟩

/-- C2: on every well-formed sketch with depth and width at least one,
Estimate returns the minimum over the rows r of counters[r][location(r)]:
it is a lower bound of every such cell and equals one of them.  The
embedding of Estimate is a pure function of the sketch state because the Go
method writes none of d, w or count (it only resets the scratch hasher),
which is the non-mutation part of the claim. -/
theorem estimate_is_row_minimum (s : CountMinSketch) (key : List Nat)
    (hwf : Wellformed s) (hd : 1 ≤ s.d) (hw : 1 ≤ s.w) :
    (∀ r, r < s.d → Estimate s key ≤ cellAt s key r) ∧
      (∃ r, r < s.d ∧ Estimate s key = cellAt s key r) :=
  estimate_min_char s key hd

/-- C2 witness: the theorem applied at a concrete sketch. -/
theorem estimate_is_row_minimum_witness :
    Wellformed ⟨2, 2, [[1, 2], [3, 4]]⟩ ∧
    ((∀ r, r < 2 → Estimate ⟨2, 2, [[1, 2], [3, 4]]⟩ [7]
        ≤ cellAt ⟨2, 2, [[1, 2], [3, 4]]⟩ [7] r) ∧
      (∃ r, r < 2 ∧ Estimate ⟨2, 2, [[1, 2], [3, 4]]⟩ [7]
        = cellAt ⟨2, 2, [[1, 2], [3, 4]]⟩ [7] r)) :=
  ⟨by decide, estimate_is_row_minimum ⟨2, 2, [[1, 2], [3, 4]]⟩ [7] (by decide)
    (by decide) (by decide)⟩

/-- C3: for every well-formed sketch, decoding the byte stream written by
WriteTo restores the same depth, the same width, and every counter value. -/
theorem binary_roundtrip (s : CountMinSketch) (hwf : Wellformed s) :
    ReadFrom (writeTo s) = some ⟨s.d, s.w, s.count⟩ :=
  readFrom_writeTo s hwf

/-- C3 witness: the round-trip evaluated at a concrete sketch. -/
theorem binary_roundtrip_witness :
    Wellformed ⟨2, 3, [[1, 2, 3], [4, 5, 6]]⟩ ∧
    ReadFrom (writeTo ⟨2, 3, [[1, 2, 3], [4, 5, 6]]⟩)
      = some ⟨2, 3, [[1, 2, 3], [4, 5, 6]]⟩ :=
  ⟨by decide, binary_roundtrip ⟨2, 3, [[1, 2, 3], [4, 5, 6]]⟩ (by decide)⟩

/-- C4: the bytes WriteTo produces are exactly depth and width as 8-byte
big-endian words followed by the row-major counters as 8-byte big-endian
words; the length is exactly 16 + 8*depth*width; and the returned byte
count equals that length (the Go count is an int64, so the equality is
stated under the bound 16 + 8*d*w < 2 ^ 63, which every sketch that fits
in memory satisfies). -/
theorem writeTo_format (s : CountMinSketch) (hwf : Wellformed s) :
    writeTo s = specBinaryLayout s ∧
    (writeTo s).length = 16 + 8 * (s.d * s.w) ∧
    (16 + 8 * (s.d * s.w) < 2 ^ 63 →
      writeToRet s = ((16 + 8 * (s.d * s.w) : Nat) : Int)) := by
  refine ⟨writeTo_eq_spec s hwf, writeTo_length s, ?_⟩
  intro hlt
  have harith : 2 * 8 + s.d * (8 * s.w) = 16 + 8 * (s.d * s.w) := by
    rw [Nat.mul_left_comm]
  unfold writeToRet
  rw [harith, int64Of_small _ hlt]

/-- C4 witness: the format theorem applied at a concrete sketch. -/
theorem writeTo_format_witness :
    Wellformed ⟨1, 2, [[3, 4]]⟩ ∧
    (writeTo ⟨1, 2, [[3, 4]]⟩ = specBinaryLayout ⟨1, 2, [[3, 4]]⟩ ∧
      (writeTo ⟨1, 2, [[3, 4]]⟩).length = 16 + 8 * (1 * 2) ∧
      (16 + 8 * (1 * 2) < 2 ^ 63 →
        writeToRet ⟨1, 2, [[3, 4]]⟩ = ((16 + 8 * (1 * 2) : Nat) : Int))) :=
  ⟨by decide, writeTo_format ⟨1, 2, [[3, 4]]⟩ (by decide)⟩

/-- C5, counterexample: merged counters are uint64 sums, which wrap: merging
two 1-by-1 sketches whose single cells both hold 2 ^ 63 succeeds but leaves
the cell at 0, not at the arithmetic sum 2 ^ 64. -/
theorem merge_overflow_counterexample :
    (Merge ⟨1, 1, [[2 ^ 63]]⟩ ⟨1, 1, [[2 ^ 63]]⟩).2 = none ∧
    cellVal (Merge ⟨1, 1, [[2 ^ 63]]⟩ ⟨1, 1, [[2 ^ 63]]⟩).1.count 0 0 = 0 ∧
    cellVal [[2 ^ 63]] 0 0 + cellVal [[2 ^ 63]] 0 0 ≠ 0 :=
  ⟨by decide, by decide, by decide⟩

/-- C5, amended: for sketches with equal depth and equal width, merge
returns no error and afterwards every counter cell of the receiver equals
the wrapping uint64 sum (mod 2 ^ 64) of its previous value and the
corresponding cell of the argument; the argument is left unmodified (the
embedding of Merge reads but never writes the argument). -/
theorem merge_adds_cells (s other : CountMinSketch)
    (hd : s.d = other.d) (hw : s.w = other.w) :
    (Merge s other).2 = none ∧
    (Merge s other).1.d = s.d ∧ (Merge s other).1.w = s.w ∧
    ∀ i j, i < s.d → j < s.w →
      cellVal (Merge s other).1.count i j
        = (cellVal s.count i j + cellVal other.count i j) % U64 := by
  obtain ⟨h1, h2, h3, -⟩ := merge_ok s other hd hw
  exact ⟨h1, h2, h3, fun i j hi hj => merge_cell s other hd hw i j hi hj⟩

/-- C5 witness: the amended merge theorem applied at concrete sketches. -/
theorem merge_adds_cells_witness :
    (Merge ⟨1, 2, [[1, 2]]⟩ ⟨1, 2, [[10, 20]]⟩).2 = none ∧
    (Merge ⟨1, 2, [[1, 2]]⟩ ⟨1, 2, [[10, 20]]⟩).1.d = 1 ∧
    (Merge ⟨1, 2, [[1, 2]]⟩ ⟨1, 2, [[10, 20]]⟩).1.w = 2 ∧
    ∀ i j, i < 1 → j < 2 →
      cellVal (Merge ⟨1, 2, [[1, 2]]⟩ ⟨1, 2, [[10, 20]]⟩).1.count i j
        = (cellVal [[1, 2]] i j + cellVal [[10, 20]] i j) % U64 :=
  merge_adds_cells ⟨1, 2, [[1, 2]]⟩ ⟨1, 2, [[10, 20]]⟩ rfl rfl

/-- C6: merging sketches whose depths differ or whose widths differ returns
an error and leaves the receiver exactly as it was; the argument is never
written (the embedding of Merge is pure in the argument). -/
theorem merge_dimension_mismatch (s other : CountMinSketch)
    (h : s.d ≠ other.d ∨ s.w ≠ other.w) :
    (Merge s other).2.isSome ∧ (Merge s other).1 = s :=
  ⟨(merge_mismatch s other h).2, (merge_mismatch s other h).1⟩

/-- C6 witness: the mismatch theorem applied at concrete sketches of
different depth. -/
theorem merge_dimension_mismatch_witness :
    (Merge ⟨1, 1, [[5]]⟩ ⟨2, 1, [[5], [6]]⟩).2.isSome ∧
    (Merge ⟨1, 1, [[5]]⟩ ⟨2, 1, [[5], [6]]⟩).1 = ⟨1, 1, [[5]]⟩ :=
  merge_dimension_mismatch ⟨1, 1, [[5]]⟩ ⟨2, 1, [[5], [6]]⟩ (Or.inl (by decide))

/-- C7: New with depth 0 or width 0 fails with the invalid-parameter error
and produces no sketch (and hence allocates no counter storage). -/
theorem new_rejects_zero (d w : Nat) (h : d = 0 ∨ w = 0) :
    New d w = Except.error
      "countminsketch: values of d and w should both be greater than 0" := by
  unfold New
  rw [if_pos h]

/-- C7 witness: the rejection applied at depth 0. -/
theorem new_rejects_zero_witness :
    New 0 1 = Except.error
      "countminsketch: values of d and w should both be greater than 0" :=
  new_rejects_zero 0 1 (Or.inl rfl)

/-- C8: for epsilon and delta in (0,1), NewWithEstimates succeeds and yields
width = ceil(2/epsilon) and depth = ceil(log(1-delta)/log(1/2)); in
particular at (0.1, 0.9) the resulting sketch has depth 4 and width 20. -/
theorem newWithEstimates_formula :
    (∀ epsilon delta : ℝ, 0 < epsilon → epsilon < 1 → 0 < delta → delta < 1 →
      ∃ s2, NewWithEstimates epsilon delta = Except.ok s2 ∧
        s2.d = ⌈Real.log (1 - delta) / Real.log (1 / 2)⌉₊ ∧
        s2.w = ⌈2 / epsilon⌉₊) ∧
    (∃ s2, NewWithEstimates ((1 : ℝ) / 10) ((9 : ℝ) / 10) = Except.ok s2 ∧
      s2.d = 4 ∧ s2.w = 20) := by
  have hgen : ∀ epsilon delta : ℝ, 0 < epsilon → epsilon < 1 → 0 < delta → delta < 1 →
      ∃ s2, NewWithEstimates epsilon delta = Except.ok s2 ∧
        s2.d = ⌈Real.log (1 - delta) / Real.log (1 / 2)⌉₊ ∧
        s2.w = ⌈2 / epsilon⌉₊ := by
    intro epsilon delta he0 he1 hd0 hd1
    rw [newWithEstimates_eq epsilon delta he0 he1 hd0 hd1,
      new_ok _ _ (Nat.pos_iff_ne_zero.mp (ceil_d_pos delta hd0 hd1))
        (Nat.pos_iff_ne_zero.mp (ceil_w_pos epsilon he0 he1))]
    exact ⟨_, rfl, rfl, rfl⟩
  refine ⟨hgen, ?_⟩
  obtain ⟨s2, hs2, hd2, hw2⟩ := hgen ((1 : ℝ) / 10) ((9 : ℝ) / 10)
    (by norm_num) (by norm_num) (by norm_num) (by norm_num)
  exact ⟨s2, hs2, by rw [hd2, ceil_d_concrete], by rw [hw2, ceil_w_concrete]⟩

/-- C8 witness: the general formula applied at epsilon = delta = 1/2. -/
theorem newWithEstimates_formula_witness :
    (0 : ℝ) < 1 / 2 ∧ ((1 : ℝ) / 2 < 1) ∧
    ∃ s2, NewWithEstimates ((1 : ℝ) / 2) ((1 : ℝ) / 2) = Except.ok s2 ∧
      s2.d = ⌈Real.log (1 - (1 : ℝ) / 2) / Real.log (1 / 2)⌉₊ ∧
      s2.w = ⌈2 / ((1 : ℝ) / 2)⌉₊ :=
  ⟨one_half_pos, one_half_lt_one,
    newWithEstimates_formula.1 ((1 : ℝ) / 2) ((1 : ℝ) / 2)
      one_half_pos one_half_lt_one one_half_pos one_half_lt_one⟩

/-- C9, counterexample: UnmarshalJSON installs an arbitrary decoded payload
verbatim with no validation, so decoding the payload d=1, w=1, count=[]
leaves a sketch whose storage holds 0 cells while depth*width = 1, breaking
the claimed invariant. -/
theorem json_decode_invariant_counterexample :
    totalCells (UnmarshalJSON ⟨1, 1, [[0]]⟩ ⟨1, 1, []⟩)
      ≠ (UnmarshalJSON ⟨1, 1, [[0]]⟩ ⟨1, 1, []⟩).d
        * (UnmarshalJSON ⟨1, 1, [[0]]⟩ ⟨1, 1, []⟩).w := by
  decide

/-- C9, amended: construction, update, merge and binary decode all leave
the counter storage with exactly depth*width cells (merge also leaves the
receiver untouched when it fails), but structured (JSON) decode installs
the payload fields verbatim without validation, so after decoding an
arbitrary payload the storage is exactly the payload array and the
invariant holds only when that array itself has D*W cells. -/
theorem counter_storage_invariant :
    (∀ d w s2, New d w = Except.ok s2 → totalCells s2 = s2.d * s2.w) ∧
    (∀ (s : CountMinSketch) (key : List Nat) (cnt : Nat),
      totalCells (Update s key cnt) = totalCells s ∧
      (Update s key cnt).d = s.d ∧ (Update s key cnt).w = s.w) ∧
    (∀ s other : CountMinSketch, s.d = other.d → s.w = other.w →
      totalCells (Merge s other).1 = (Merge s other).1.d * (Merge s other).1.w) ∧
    (∀ s other : CountMinSketch, (Merge s other).2.isSome → (Merge s other).1 = s) ∧
    (∀ (l : List Nat) (s2 : CountMinSketch), ReadFrom l = some s2 →
      totalCells s2 = s2.d * s2.w) ∧
    (∀ (s : CountMinSketch) (j : CountMinSketchJSON),
      (UnmarshalJSON s j).count = j.Count ∧ (UnmarshalJSON s j).d = j.D ∧
      (UnmarshalJSON s j).w = j.W) := by
  refine ⟨fun d w s2 h => new_totalCells d w s2 h,
    fun s key cnt => ⟨update_totalCells s key cnt, rfl, rfl⟩,
    fun s other hd hw => merge_ok_shape s other hd hw,
    fun s other h => merge_isSome_unchanged s other h,
    fun l s2 h => ?_,
    fun s j => ⟨rfl, rfl, rfl⟩⟩
  obtain ⟨h1, h2⟩ := readFrom_shape l s2 h
  exact totalCells_of_shape s2 h1 h2

/-- C9 witness: the construction clause applied at New 2 3. -/
theorem counter_storage_invariant_witness :
    totalCells ⟨2, 3, List.replicate 2 (List.replicate 3 0)⟩ = 2 * 3 :=
  counter_storage_invariant.1 2 3 ⟨2, 3, List.replicate 2 (List.replicate 3 0)⟩ rfl

/-- C10: on a well-formed sketch of positive width, every bucket index the
location derivation produces is strictly below the width, and every counter
access Update and Estimate perform — row r below depth at column
location(r) — is within the bounds of the stored matrix. -/
theorem locations_within_bounds (s : CountMinSketch) (key : List Nat)
    (hwf : Wellformed s) (hw : 1 ≤ s.w) :
    (∀ l ∈ locations s key, l < s.w) ∧
    (∀ r, r < s.d → r < s.count.length ∧ loc s key r < (s.count.getD r []).length) := by
  obtain ⟨-, -, hlen, hrows, -⟩ := hwf
  constructor
  · intro l hl
    obtain ⟨r, -, rfl⟩ := List.mem_map.mp hl
    exact loc_lt_w s key r (by omega)
  · intro r hr
    have hrlen : r < s.count.length := by omega
    refine ⟨hrlen, ?_⟩
    rw [hrows _ (getD_mem s.count r [] hrlen)]
    exact loc_lt_w s key r (by omega)

/-- C10 witness: the bounds theorem applied at a concrete sketch and key. -/
theorem locations_within_bounds_witness :
    Wellformed ⟨2, 3, [[0, 0, 0], [0, 0, 0]]⟩ ∧
    ((∀ l ∈ locations ⟨2, 3, [[0, 0, 0], [0, 0, 0]]⟩ [1, 2], l < 3) ∧
      (∀ r, r < 2 → r < ([[0, 0, 0], [0, 0, 0]] : List (List Nat)).length ∧
        loc ⟨2, 3, [[0, 0, 0], [0, 0, 0]]⟩ [1, 2] r
          < (([[0, 0, 0], [0, 0, 0]] : List (List Nat)).getD r []).length)) :=
  ⟨by decide, locations_within_bounds ⟨2, 3, [[0, 0, 0], [0, 0, 0]]⟩ [1, 2]
    (by decide) (by decide)⟩
